import Mathlib

/-
  Verification of the text-to-speech PDF reading service
  (sentence-aware chunker + chunk-cursor session engine).

  The Python source is embedded shallowly: texts are `List Char`,
  the chunk generator loops become structurally recursive functions
  threading the accumulator state, the in-memory session dict becomes
  an association list, and external collaborators (PDF text
  extraction, the Edge-TTS audio backend) are inputs/parameters.
-/

namespace TTSService

/-- Whitespace test used by Python's str.split() / str.strip()
(modelled by Lean's standard whitespace classifier). -/
def isWs (c : Char) : Bool := c.isWhitespace

/-- Sentence-terminal punctuation: the Python membership test c in ".!?". -/
def isTerm (c : Char) : Bool := c = '.' || c = '!' || c = '?'

/-- Python str.strip(): drop whitespace from both ends. -/
def strip (s : List Char) : List Char :=
  ((s.dropWhile isWs).reverse.dropWhile isWs).reverse

/-- Helper for splitWs: scan the text, building the current word in
reverse in acc, emitting it at each whitespace run. -/
def splitWsAux : List Char → List Char → List (List Char)
  | [], acc => if acc.isEmpty then [] else [acc.reverse]
  | c :: cs, acc =>
    if isWs c then
      if acc.isEmpty then splitWsAux cs [] else acc.reverse :: splitWsAux cs []
    else splitWsAux cs (c :: acc)

/-- Python str.split() with no argument: split on whitespace runs,
producing no empty words. -/
def splitWs (s : List Char) : List (List Char) := splitWsAux s []

/-- Python " ".join(ws): interleave a single space between the items. -/
def joinSp : List (List Char) → List Char
  | [] => []
  | [w] => w
  | w :: ws => w ++ ' ' :: joinSp ws

/-- Helper for splitSentences: the accumulated current sentence is kept
in reverse; a sentence is flushed (stripped) when a terminator arrives
and at least one character precedes it in the accumulator
(Python: char in p and len(current) > 1, tested after appending char). -/
def splitSentencesAux : List Char → List Char → List (List Char)
  | [], current => if current.isEmpty then [] else [strip current.reverse]
  | c :: cs, current =>
    if isTerm c && !current.isEmpty then
      strip (c :: current).reverse :: splitSentencesAux cs []
    else splitSentencesAux cs (c :: current)

/-- The manual punctuation-scan sentence splitter of
TextChunk.create_chunks_from_text (pdf_service.py lines 31-40). -/
def splitSentences (t : List Char) : List (List Char) := splitSentencesAux t []

/-- The TextChunk record of pdf_service.py.  start_position is a pair of
floats in the source but is always (0, 0); it is modelled as integers. -/
structure TextChunk where
  text : List Char
  page_number : Nat
  chunk_index : Nat
  start_position : Int × Int := (0, 0)
  is_sentence_start : Bool := true
deriving Repr, DecidableEq

/-- The word-boundary re-splitting loop for an oversized sentence
(pdf_service.py lines 87-117): greedy fill of words, flushing the
accumulated words when the next word would overflow; returns the emitted
chunks and the chunk index that follows them.  cw is current_words
(in order), cwl is current_word_length. -/
def wordLoop (p M : Nat) : List (List Char) → List (List Char) → Nat → Nat →
    List TextChunk × Nat
  | [], cw, _cwl, idx =>
    if cw.isEmpty then ([], idx)
    else ([⟨joinSp cw, p, idx, (0, 0), true⟩], idx + 1)
  | w :: ws, cw, cwl, idx =>
    if cwl + w.length + (if cw.isEmpty then 0 else 1) > M ∧ ¬cw.isEmpty then
      let r := wordLoop p M ws [w] w.length (idx + 1)
      (⟨joinSp cw, p, idx, (0, 0), true⟩ :: r.1, r.2)
    else
      wordLoop p M ws (cw ++ [w]) (cwl + w.length + (if cwl > 0 then 1 else 0)) idx

/-- The mutable loop state of create_chunks_from_text: the pending
sentences current_chunk, their joined length current_length, and the
next chunk_index. -/
structure BState where
  cc : List (List Char)
  cl : Nat
  idx : Nat
deriving Repr, DecidableEq

/-- One iteration of the sentence loop of create_chunks_from_text
(pdf_service.py lines 49-120) on sentence s0: returns the chunks emitted
during the iteration and the state afterwards.  After the word-split
path the accumulator state is ([], 0): in the source both fields were
already reset by whichever flush emptied current_chunk, since
current_length is 0 whenever current_chunk is empty on every state the
loop can reach (the invariant proved as stepSentence_inv0 below). -/
def stepSentence (p M : Nat) (s0 : List Char) (st : BState) :
    List TextChunk × BState :=
  let s := strip s0
  if s.isEmpty then ([], st)
  else
    let sl := s.length
    let nl := st.cl + (if st.cc.isEmpty then 0 else 1) + sl
    let out1 : List TextChunk :=
      if nl > M ∧ ¬st.cc.isEmpty then [⟨joinSp st.cc, p, st.idx, (0, 0), true⟩] else []
    let st1 : BState :=
      if nl > M ∧ ¬st.cc.isEmpty then ⟨[], 0, st.idx + 1⟩ else st
    if sl > M then
      let out2 : List TextChunk :=
        if ¬st1.cc.isEmpty then [⟨joinSp st1.cc, p, st1.idx, (0, 0), true⟩] else []
      let st2 : BState :=
        if ¬st1.cc.isEmpty then ⟨[], 0, st1.idx + 1⟩ else st1
      let r := wordLoop p M (splitWs s) [] 0 st2.idx
      (out1 ++ out2 ++ r.1, ⟨[], 0, r.2⟩)
    else
      (out1, ⟨st1.cc ++ [s], st1.cl + sl + (if st1.cl > 0 then 1 else 0), st1.idx⟩)

/-- The sentence loop of create_chunks_from_text run to completion,
including the final flush of any remaining accumulated sentences. -/
def runSentences (p M : Nat) : List (List Char) → BState → List TextChunk
  | [], st =>
    if st.cc.isEmpty then [] else [⟨joinSp st.cc, p, st.idx, (0, 0), true⟩]
  | s :: ss, st =>
    let r := stepSentence p M s st
    r.1 ++ runSentences p M ss r.2

/-- The Chunk Builder on an already-split sentence sequence: the main
loop of create_chunks_from_text started from the empty accumulator. -/
def chunksFromSentences (p M : Nat) (ss : List (List Char)) : List TextChunk :=
  runSentences p M ss ⟨[], 0, 0⟩

/-- TextChunk.create_chunks_from_text (pdf_service.py lines 26-130):
empty or whitespace-only text yields no chunks; otherwise the text is
sentence-split and fed through the chunk-building loop. -/
def create_chunks_from_text (t : List Char) (p M : Nat) : List TextChunk :=
  if (strip t).isEmpty then []
  else
    let ss := splitSentences t
    if ss.isEmpty then [] else chunksFromSentences p M ss

/-- process_pdf_page (pdf_service.py lines 136-157) on the text the
extraction collaborator returned for the page: skip empty pages,
collapse whitespace runs to single spaces, append a synthetic period
when no sentence terminator occurs, then build chunks. -/
def process_pdf_page (page_number : Nat) (extracted : List Char) (M : Nat) :
    List TextChunk :=
  if (strip extracted).isEmpty then []
  else
    let text := joinSp (splitWs extracted)
    let text2 := if text.any (fun c => isTerm c) then text else text ++ ['.']
    create_chunks_from_text (strip text2) page_number M

/-- The page loop of process_pdf (pdf_service.py lines 169-175):
pages enumerated from n, each page's chunks concatenated in order. -/
def processPages : List (List Char) → Nat → Nat → List TextChunk
  | [], _, _ => []
  | t :: rest, n, M => process_pdf_page n t M ++ processPages rest (n + 1) M

/-- process_pdf (pdf_service.py lines 159-183) on the per-page texts the
extraction collaborator produced, pages numbered from 1.  The file-IO,
pdfplumber calls and their error wrapping are the external collaborator;
this models the successful extraction path that yields the chunks. -/
def process_pdf (pages : List (List Char)) (M : Nat) : List TextChunk :=
  processPages pages 1 M

/-- The PDFSession record (models/tts_models.py): id, immutable chunk
list, mutable read cursor, last-access timestamp.  current_index is a
Python int, so it is an Int here (the read route can in fact store a
negative value); the timestamp is an abstract Nat. -/
structure Session where
  id : String
  chunks : List TextChunk
  current_index : Int
  last_accessed : Nat
deriving Repr, DecidableEq

/-- The in-memory session dict pdf_sessions, as an association list. -/
abbrev Store := List (String × Session)

/-- pdf_sessions.get(session_id): the first entry with the given key. -/
def findSession (store : Store) (sid : String) : Option Session :=
  (List.find? (fun e => e.1 == sid) store).map (fun e => e.2)

/-- In-place mutation of the session object stored under sid: every
entry under that key is replaced by the updated session. -/
def setSession (store : Store) (sid : String) (s : Session) : Store :=
  List.map (fun e => if e.1 == sid then (sid, s) else e) store

/-- Error outcomes of the HTTP-facing operations. -/
inductive ApiError where
  | sessionNotFound
  | invalidChunkIndex
  | noContent
  | internalError
  | noTextContent
  | synthesisFailed
  | emptyText
  | invalidParam
deriving Repr, DecidableEq

/-- Python list indexing l[i]: non-negative indices from the front,
negative indices from the back down to -len(l); anything else raises
IndexError (None here). -/
def pyGet {α : Type} (l : List α) (i : Int) : Option α :=
  if 0 ≤ i then l.get? i.toNat
  else if (l.length : Int) + i < 0 then none
  else l.get? ((l.length : Int) + i).toNat

/-- The session-creating tail of upload_pdf (pdf_routes.py lines 40-54):
given the chunk list built from the uploaded document, reject when it is
empty, otherwise insert a new session (fresh uuid modelled as the given
id, creation time as now) with cursor 0 and return (id, total_chunks). -/
def create_session (store : Store) (chunks : List TextChunk) (fresh : String)
    (now : Nat) : Store × Except ApiError (String × Nat) :=
  if chunks.isEmpty then (store, Except.error ApiError.noTextContent)
  else ((fresh, ⟨fresh, chunks, 0, now⟩) :: store,
        Except.ok (fresh, chunks.length))

/-- read_chunk (pdf_routes.py lines 60-83): look up the session, index
into its chunk list with Python indexing (IndexError becomes the
400 invalid-chunk-index error), commit current_index and last_accessed,
then call the synthesis collaborator on the chunk's text; a collaborator
failure surfaces after the cursor update is already committed. -/
def read_chunk (store : Store) (sid : String) (i : Int) (now : Nat)
    (synth : List Char → Except Unit (List Nat)) :
    Store × Except ApiError (List Nat) :=
  match findSession store sid with
  | none => (store, Except.error ApiError.sessionNotFound)
  | some s =>
    match pyGet s.chunks i with
    | none => (store, Except.error ApiError.invalidChunkIndex)
    | some chunk =>
      let s2 : Session := ⟨s.id, s.chunks, i, now⟩
      let store2 := setSession store sid s2
      match synth chunk.text with
      | Except.ok audio => (store2, Except.ok audio)
      | Except.error _ => (store2, Except.error ApiError.synthesisFailed)

/-- get_status (pdf_routes.py lines 85-97): look up the session and
index its chunk list at current_index; there is no empty-chunk check, so
a failing index access is an uncaught IndexError (a 500, modelled as
internalError); on success return (current_index, total_chunks,
page number of the current chunk). -/
def get_status (store : Store) (sid : String) :
    Store × Except ApiError (Int × Nat × Nat) :=
  match findSession store sid with
  | none => (store, Except.error ApiError.sessionNotFound)
  | some s =>
    match pyGet s.chunks s.current_index with
    | none => (store, Except.error ApiError.internalError)
    | some c => (store, Except.ok (s.current_index, s.chunks.length, c.page_number))

/-- Digit run with single underscores allowed between digits, as
accepted by Python's int(): accumulates the decimal value. -/
def pyDigitsRest (acc : Nat) : List Char → Option Nat
  | [] => some acc
  | '_' :: c :: cs =>
    if c.isDigit then pyDigitsRest (acc * 10 + (c.toNat - 48)) cs else none
  | ['_'] => none
  | c :: cs =>
    if c.isDigit then pyDigitsRest (acc * 10 + (c.toNat - 48)) cs else none

/-- A non-empty digit run (first char must be a digit, no leading
underscore). -/
def pyDigits : List Char → Option Nat
  | [] => none
  | c :: cs => if c.isDigit then pyDigitsRest (c.toNat - 48) cs else none

/-- Python int(str) on an ASCII decimal literal: surrounding whitespace
stripped, optional sign, digits with single interior underscores. -/
def pyInt (s : List Char) : Option Int :=
  match strip s with
  | '+' :: cs => (pyDigits cs).map (fun n => (n : Int))
  | '-' :: cs => (pyDigits cs).map (fun n => -(n : Int))
  | cs => (pyDigits cs).map (fun n => (n : Int))

/-- validate_percentage (tts_service.py lines 12-20): the value must end
in '%' and its prefix must parse as an int in [-100, 100]; any failure
(including the out-of-range case, whose inner ValueError is caught by
the same except clause) raises ValueError. -/
def validate_percentage (value : List Char) : Bool :=
  if value.getLast? = some '%' then
    match pyInt value.dropLast with
    | none => false
    | some n => decide (-100 ≤ n) && decide (n ≤ 100)
  else false

/-- synthesize (tts_service.py lines 6-32): reject empty or
whitespace-only text, validate rate then volume, and only then invoke
the Edge-TTS backend (the external collaborator, abstracted as a
function of the request parameters). -/
def synthesize (backend : List Char → List Char → List Char → List Char → List Nat)
    (text voice rate volume : List Char) : Except ApiError (List Nat) :=
  if (strip text).isEmpty then Except.error ApiError.emptyText
  else if !validate_percentage rate then Except.error ApiError.invalidParam
  else if !validate_percentage volume then Except.error ApiError.invalidParam
  else Except.ok (backend text voice rate volume)

/-- The non-whitespace character content of a text, in order: the
invariant currency of the no-data-loss properties. -/
def nonWs (s : List Char) : List Char := s.filter (fun c => !isWs c)

/-- The concatenated text of a chunk sequence. -/
def chunkText (l : List TextChunk) : List Char := (l.map TextChunk.text).flatten

end TTSService

namespace TTSService

theorem joinSp_cons (w : List Char) (ws : List (List Char)) :
    joinSp (w :: ws) = w ++ (if ws.isEmpty then [] else ' ' :: joinSp ws) := by
  cases ws with
  | nil => simp [joinSp]
  | cons x xs => simp [joinSp]

theorem joinSp_append_singleton (cc : List (List Char)) (s : List Char) :
    joinSp (cc ++ [s]) = (if cc.isEmpty then [] else joinSp cc ++ [' ']) ++ s := by
  induction cc with
  | nil => simp [joinSp]
  | cons w ws ih =>
    rw [List.cons_append, joinSp_cons, joinSp_cons]
    cases ws with
    | nil => simp [joinSp]
    | cons x xs => simp_all [joinSp]

theorem joinSp_length_append (cc : List (List Char)) (s : List Char) :
    (joinSp (cc ++ [s])).length =
      (joinSp cc).length + s.length + (if cc.isEmpty then 0 else 1) := by
  rw [joinSp_append_singleton]
  by_cases h : cc.isEmpty
  · rw [List.isEmpty_iff] at h
    subst h
    simp [joinSp]
  · simp only [if_neg h, List.length_append, List.length_cons]
    simp
    omega

theorem joinSp_length_pos (cc : List (List Char)) (hne : ¬cc.isEmpty)
    (hel : ∀ x ∈ cc, x ≠ []) : 0 < (joinSp cc).length := by
  cases cc with
  | nil => simp at hne
  | cons w ws =>
    have hw : w ≠ [] := hel w (by simp)
    rw [joinSp_cons]
    have : 0 < w.length := List.length_pos.mpr hw
    simp only [List.length_append]
    omega

theorem nonWs_nil : nonWs [] = [] := rfl

theorem nonWs_append (a b : List Char) : nonWs (a ++ b) = nonWs a ++ nonWs b := by
  simp [nonWs]

theorem nonWs_reverse (a : List Char) : nonWs a.reverse = (nonWs a).reverse := by
  simp [nonWs, List.filter_reverse]

theorem nonWs_dropWhile (a : List Char) :
    nonWs (a.dropWhile isWs) = nonWs a := by
  induction a with
  | nil => rfl
  | cons c cs ih =>
    by_cases h : isWs c
    · simpa [List.dropWhile_cons, h, nonWs, List.filter_cons] using ih
    · simp [List.dropWhile_cons, h]

theorem nonWs_strip (a : List Char) : nonWs (strip a) = nonWs a := by
  unfold strip
  rw [nonWs_reverse, nonWs_dropWhile, nonWs_reverse, List.reverse_reverse,
      nonWs_dropWhile]

theorem nonWs_of_strip_empty (a : List Char) (h : (strip a).isEmpty) :
    nonWs a = [] := by
  rw [← nonWs_strip a]
  rw [List.isEmpty_iff] at h
  simp [h, nonWs]

theorem nonWs_space_cons (a : List Char) : nonWs (' ' :: a) = nonWs a := by
  simp [nonWs, List.filter_cons, isWs]

theorem nonWs_joinSp (ws : List (List Char)) :
    nonWs (joinSp ws) = nonWs ws.flatten := by
  induction ws with
  | nil => rfl
  | cons w rest ih =>
    rw [joinSp_cons]
    cases rest with
    | nil => simp
    | cons x xs =>
      rw [if_neg (by simp), nonWs_append, nonWs_space_cons, ih]
      simp [nonWs_append]

theorem nonWs_idem (a : List Char) : nonWs (nonWs a) = nonWs a := by
  simp [nonWs, List.filter_filter]

theorem splitWsAux_join (s acc : List Char) :
    (splitWsAux s acc).flatten = acc.reverse ++ nonWs s := by
  induction s generalizing acc with
  | nil =>
    by_cases h : acc.isEmpty
    · rw [List.isEmpty_iff] at h; simp [splitWsAux, h, nonWs]
    · simp [splitWsAux, h, nonWs]
  | cons c cs ih =>
    by_cases h : isWs c
    · by_cases ha : acc.isEmpty
      · rw [List.isEmpty_iff] at ha
        simp [splitWsAux, h, ha, ih, nonWs, List.filter_cons]
      · simp [splitWsAux, h, ha, ih, nonWs, List.filter_cons]
    · simp [splitWsAux, h, ih, nonWs, List.filter_cons]

theorem splitWs_join (s : List Char) : (splitWs s).flatten = nonWs s := by
  simpa using splitWsAux_join s []

theorem splitWsAux_words (s acc : List Char) (hacc : ∀ c ∈ acc, ¬isWs c) :
    ∀ w ∈ splitWsAux s acc, w ≠ [] ∧ ∀ c ∈ w, ¬isWs c := by
  induction s generalizing acc with
  | nil =>
    by_cases h : acc.isEmpty
    · simp [splitWsAux, h]
    · intro w hw
      simp only [splitWsAux, if_neg h, List.mem_singleton] at hw
      subst hw
      refine ⟨by simpa [List.isEmpty_iff] using h, ?_⟩
      intro c hc
      exact hacc c (by simpa using hc)
  | cons c cs ih =>
    by_cases h : isWs c
    · by_cases ha : acc.isEmpty
      · intro w hw
        simp only [splitWsAux, h, if_pos, if_pos ha] at hw
        exact ih [] (by simp) w hw
      · intro w hw
        simp only [splitWsAux, h, if_pos, if_neg ha, List.mem_cons] at hw
        rcases hw with rfl | hw
        · refine ⟨by simpa [List.isEmpty_iff] using ha, ?_⟩
          intro d hd
          exact hacc d (by simpa using hd)
        · exact ih [] (by simp) w hw
    · intro w hw
      simp only [splitWsAux, if_neg h] at hw
      refine ih (c :: acc) ?_ w hw
      intro d hd
      rcases List.mem_cons.mp hd with rfl | hd
      · exact h
      · exact hacc d hd

theorem splitWs_words (s : List Char) :
    ∀ w ∈ splitWs s, w ≠ [] ∧ ∀ c ∈ w, ¬isWs c :=
  splitWsAux_words s [] (by simp)

theorem isTerm_not_isWs (c : Char) (h : isTerm c = true) : isWs c = false := by
  simp only [isTerm, Bool.or_eq_true, decide_eq_true_eq] at h
  rcases h with (rfl | rfl) | rfl <;> decide

theorem nonWs_cons (c : Char) (a : List Char) :
    nonWs (c :: a) = (if isWs c then [] else [c]) ++ nonWs a := by
  by_cases h : isWs c <;> simp [nonWs, List.filter_cons, h]

theorem splitSentencesAux_join (t cur : List Char) :
    nonWs (splitSentencesAux t cur).flatten = (nonWs cur).reverse ++ nonWs t := by
  induction t generalizing cur with
  | nil =>
    by_cases h : cur.isEmpty
    · rw [List.isEmpty_iff] at h
      simp [splitSentencesAux, h, nonWs]
    · have he : splitSentencesAux [] cur = [strip cur.reverse] := by
        simp [splitSentencesAux, h]
      rw [he]
      have hf : nonWs ([strip cur.reverse]).flatten = nonWs (strip cur.reverse) := by
        simp
      rw [hf, nonWs_strip, nonWs_reverse]
      simp [nonWs_nil]
  | cons c cs ih =>
    by_cases h : (isTerm c && !cur.isEmpty) = true
    · have hterm : isTerm c = true := by
        simp only [Bool.and_eq_true] at h
        exact h.1
      have hc : isWs c = false := isTerm_not_isWs c hterm
      simp only [splitSentencesAux, if_pos h, List.flatten_cons, nonWs_append,
        nonWs_strip, nonWs_reverse, nonWs_cons, hc]
      rw [ih]
      simp [nonWs_nil]
    · simp only [splitSentencesAux, if_neg h, ih, nonWs_cons]
      by_cases hc : isWs c <;> simp [hc]

theorem splitSentences_join (t : List Char) :
    nonWs (splitSentences t).flatten = nonWs t := by
  simpa [nonWs] using splitSentencesAux_join t []

theorem splitSentencesAux_ne_nil (t cur : List Char)
    (h : ¬t.isEmpty ∨ ¬cur.isEmpty) : splitSentencesAux t cur ≠ [] := by
  induction t generalizing cur with
  | nil =>
    rcases h with h | h
    · simp at h
    · simp [splitSentencesAux, h]
  | cons c cs ih =>
    by_cases hf : isTerm c && !cur.isEmpty
    · simp [splitSentencesAux, hf]
    · simp only [splitSentencesAux, if_neg hf]
      exact ih (c :: cur) (Or.inr (by simp))

theorem chunkText_nil : chunkText [] = [] := rfl

theorem chunkText_cons (c : TextChunk) (l : List TextChunk) :
    chunkText (c :: l) = c.text ++ chunkText l := by
  simp [chunkText]

theorem chunkText_append (a b : List TextChunk) :
    chunkText (a ++ b) = chunkText a ++ chunkText b := by
  simp [chunkText]

theorem wordLoop_content (p M : Nat) (ws cw : List (List Char)) (cwl idx : Nat) :
    nonWs (chunkText (wordLoop p M ws cw cwl idx).1) =
      nonWs (joinSp cw) ++ nonWs ws.flatten := by
  induction ws generalizing cw cwl idx with
  | nil =>
    by_cases h : cw.isEmpty
    · rw [List.isEmpty_iff] at h
      subst h
      simp [wordLoop, chunkText_nil, nonWs_nil, joinSp]
    · simp [wordLoop, h, chunkText, nonWs_nil]
  | cons w rest ih =>
    by_cases h : cwl + w.length + (if cw.isEmpty then 0 else 1) > M ∧ ¬cw.isEmpty = true
    · simp only [wordLoop, if_pos h, chunkText_cons, nonWs_append]
      rw [ih]
      have hjw : joinSp [w] = w := rfl
      rw [hjw]
      simp [nonWs_append, List.append_assoc]
    · simp only [wordLoop, if_neg h]
      rw [ih]
      rw [nonWs_joinSp, nonWs_joinSp]
      simp [nonWs_append, List.append_assoc]

theorem wordLoop_bound (p M : Nat) (ws cw : List (List Char)) (cwl idx : Nat)
    (hws : ∀ w ∈ ws, w ≠ [] ∧ ∀ c ∈ w, ¬isWs c)
    (hcw : ∀ w ∈ cw, w ≠ [] ∧ ∀ c ∈ w, ¬isWs c)
    (hlen : cwl = (joinSp cw).length)
    (hinv : (joinSp cw).length ≤ M ∨ ∃ w, cw = [w]) :
    ∀ c ∈ (wordLoop p M ws cw cwl idx).1,
      c.text.length ≤ M ∨ (M < c.text.length ∧ ∀ ch ∈ c.text, ¬isWs ch) := by
  induction ws generalizing cw cwl idx with
  | nil =>
    by_cases h : cw.isEmpty
    · simp [wordLoop, h]
    · intro c hc
      simp only [wordLoop, if_neg h, List.mem_singleton] at hc
      subst hc
      simp only []
      rcases hinv with hle | ⟨w, rfl⟩
      · exact Or.inl hle
      · have hw := hcw w (by simp)
        by_cases hlw : (joinSp [w]).length ≤ M
        · exact Or.inl hlw
        · refine Or.inr ⟨by omega, ?_⟩
          intro ch hch
          have : joinSp [w] = w := rfl
          rw [this] at hch
          exact hw.2 ch hch
  | cons w rest ih =>
    have hw := hws w (by simp)
    have hws' : ∀ x ∈ rest, x ≠ [] ∧ ∀ c ∈ x, ¬isWs c :=
      fun x hx => hws x (by simp [hx])
    by_cases h : cwl + w.length + (if cw.isEmpty then 0 else 1) > M ∧ ¬cw.isEmpty = true
    · intro c hc
      simp only [wordLoop, if_pos h, List.mem_cons] at hc
      rcases hc with rfl | hc
      · simp only []
        rcases hinv with hle | ⟨w0, rfl⟩
        · exact Or.inl hle
        · have hw0 := hcw w0 (by simp)
          by_cases hlw : (joinSp [w0]).length ≤ M
          · exact Or.inl hlw
          · refine Or.inr ⟨by omega, ?_⟩
            intro ch hch
            have : joinSp [w0] = w0 := rfl
            rw [this] at hch
            exact hw0.2 ch hch
      · refine ih [w] w.length (idx + 1) hws' ?_ ?_ ?_ c hc
        · intro x hx
          rcases List.mem_singleton.mp hx with rfl
          exact hw
        · rfl
        · exact Or.inr ⟨w, rfl⟩
    · intro c hc
      simp only [wordLoop, if_neg h] at hc
      have hsep : (if cwl > 0 then 1 else 0) = (if cw.isEmpty = true then 0 else 1) := by
        by_cases hcc : cw.isEmpty = true
        · have hc0 : cw = [] := List.isEmpty_iff.mp hcc
          subst hc0
          have hl0 : cwl = 0 := by simpa [joinSp] using hlen
          simp [hl0]
        · have hpos : 0 < (joinSp cw).length :=
            joinSp_length_pos cw hcc (fun x hx => (hcw x hx).1)
          have h1 : cwl > 0 := by omega
          simp [h1, hcc]
      refine ih (cw ++ [w]) _ idx hws' ?_ ?_ ?_ c hc
      · intro x hx
        rcases List.mem_append.mp hx with hx | hx
        · exact hcw x hx
        · rcases List.mem_singleton.mp hx with rfl
          exact hw
      · rw [joinSp_length_append, hsep, hlen]
      · rcases not_and_or.mp h with hng | hcc
        · left
          rw [joinSp_length_append]
          by_cases hcc : cw.isEmpty = true
          · have hc0 : cw = [] := List.isEmpty_iff.mp hcc
            subst hc0
            have hl0 : cwl = 0 := by simpa [joinSp] using hlen
            simp [joinSp] at hng ⊢
            omega
          · rw [if_neg hcc]
            rw [if_neg hcc] at hng
            omega
        · right
          have hc0 : cw = [] := by
            by_contra hne
            exact hcc (by simpa using hne)
          subst hc0
          exact ⟨w, rfl⟩

theorem stepSentence_skip (p M : Nat) (s0 : List Char) (st : BState)
    (h : (strip s0).isEmpty = true) : stepSentence p M s0 st = ([], st) := by
  simp [stepSentence, h]

theorem stepSentence_acc_noflush (p M : Nat) (s0 : List Char) (st : BState)
    (h : (strip s0).isEmpty = false)
    (hnf : ¬(st.cl + (if st.cc.isEmpty then 0 else 1) + (strip s0).length > M ∧
      ¬st.cc.isEmpty = true))
    (hsl : ¬(strip s0).length > M) :
    stepSentence p M s0 st =
      ([], ⟨st.cc ++ [strip s0],
            st.cl + (strip s0).length + (if st.cl > 0 then 1 else 0), st.idx⟩) := by
  have hE : ¬((strip s0).isEmpty = true) := by simp [h]
  simp only [stepSentence, if_neg hE, if_neg hnf, if_neg hsl]

theorem stepSentence_acc_flush (p M : Nat) (s0 : List Char) (st : BState)
    (h : (strip s0).isEmpty = false)
    (hf : st.cl + (if st.cc.isEmpty then 0 else 1) + (strip s0).length > M ∧
      ¬st.cc.isEmpty = true)
    (hsl : ¬(strip s0).length > M) :
    stepSentence p M s0 st =
      ([⟨joinSp st.cc, p, st.idx, (0, 0), true⟩],
       ⟨[strip s0], (strip s0).length, st.idx + 1⟩) := by
  have hE : ¬((strip s0).isEmpty = true) := by simp [h]
  simp only [stepSentence, if_neg hE, if_pos hf, if_neg hsl]
  simp

theorem stepSentence_word_flush (p M : Nat) (s0 : List Char) (st : BState)
    (h : (strip s0).isEmpty = false)
    (hf : st.cl + (if st.cc.isEmpty then 0 else 1) + (strip s0).length > M ∧
      ¬st.cc.isEmpty = true)
    (hsl : (strip s0).length > M) :
    stepSentence p M s0 st =
      (⟨joinSp st.cc, p, st.idx, (0, 0), true⟩ ::
         (wordLoop p M (splitWs (strip s0)) [] 0 (st.idx + 1)).1,
       ⟨[], 0, (wordLoop p M (splitWs (strip s0)) [] 0 (st.idx + 1)).2⟩) := by
  have hE : ¬((strip s0).isEmpty = true) := by simp [h]
  simp only [stepSentence, if_neg hE, if_pos hf, if_pos hsl]
  simp

theorem stepSentence_word_noflush (p M : Nat) (s0 : List Char) (st : BState)
    (h : (strip s0).isEmpty = false)
    (hcc : st.cc.isEmpty = true)
    (hsl : (strip s0).length > M) :
    stepSentence p M s0 st =
      ((wordLoop p M (splitWs (strip s0)) [] 0 st.idx).1,
       ⟨[], 0, (wordLoop p M (splitWs (strip s0)) [] 0 st.idx).2⟩) := by
  have hnf : ¬(st.cl + (if st.cc.isEmpty then 0 else 1) + (strip s0).length > M ∧
      ¬st.cc.isEmpty = true) := by
    intro hc
    exact hc.2 hcc
  have hE : ¬((strip s0).isEmpty = true) := by simp [h]
  simp only [stepSentence, if_neg hE, if_neg hnf, if_pos hsl,
    if_neg (by simp [hcc] : ¬(¬st.cc.isEmpty = true))]
  simp

theorem cc_empty_of_noflush_oversized (p M : Nat) (s0 : List Char) (st : BState)
    (hnf : ¬(st.cl + (if st.cc.isEmpty then 0 else 1) + (strip s0).length > M ∧
      ¬st.cc.isEmpty = true))
    (hsl : (strip s0).length > M) : st.cc.isEmpty = true := by
  rcases not_and_or.mp hnf with hng | hcc
  · exfalso
    apply hng
    omega
  · exact not_not.mp hcc

theorem wordLoop_idx (p M : Nat) (ws cw : List (List Char)) (cwl idx : Nat) :
    (wordLoop p M ws cw cwl idx).1.map TextChunk.chunk_index =
      List.range' idx (wordLoop p M ws cw cwl idx).1.length ∧
    (wordLoop p M ws cw cwl idx).2 = idx + (wordLoop p M ws cw cwl idx).1.length := by
  induction ws generalizing cw cwl idx with
  | nil =>
    by_cases h : cw.isEmpty
    · simp [wordLoop, h]
    · simp [wordLoop, h, List.range'_succ]
  | cons w rest ih =>
    by_cases h : cwl + w.length + (if cw.isEmpty then 0 else 1) > M ∧ ¬cw.isEmpty = true
    · simp only [wordLoop, if_pos h, List.map_cons, List.length_cons]
      have := ih [w] w.length (idx + 1)
      refine ⟨?_, ?_⟩
      · rw [this.1, List.range'_succ]
      · rw [this.2]
        omega
    · simp only [wordLoop, if_neg h]
      exact ih (cw ++ [w]) _ idx

theorem stepSentence_content (p M : Nat) (s0 : List Char) (st : BState) :
    nonWs (chunkText (stepSentence p M s0 st).1) ++
      nonWs (joinSp (stepSentence p M s0 st).2.cc) =
    nonWs (joinSp st.cc) ++ nonWs s0 := by
  by_cases hE : (strip s0).isEmpty = true
  · rw [stepSentence_skip p M s0 st hE, nonWs_of_strip_empty s0 hE]
    simp [chunkText_nil, nonWs_nil]
  · replace hE : (strip s0).isEmpty = false := by simpa using hE
    by_cases hsl : (strip s0).length > M
    · by_cases hf : st.cl + (if st.cc.isEmpty then 0 else 1) + (strip s0).length > M ∧
        ¬st.cc.isEmpty = true
      · rw [stepSentence_word_flush p M s0 st hE hf hsl]
        simp only [chunkText_cons, nonWs_append]
        rw [wordLoop_content]
        have hj : joinSp ([] : List (List Char)) = [] := rfl
        rw [hj, splitWs_join, nonWs_idem, nonWs_strip]
        simp [joinSp, nonWs_nil]
      · have hcc := cc_empty_of_noflush_oversized p M s0 st hf hsl
        have hc0 : st.cc = [] := List.isEmpty_iff.mp hcc
        rw [stepSentence_word_noflush p M s0 st hE hcc hsl]
        simp only []
        rw [wordLoop_content]
        have hj : joinSp ([] : List (List Char)) = [] := rfl
        rw [hj, splitWs_join, nonWs_idem, nonWs_strip, hc0, hj]
        simp [nonWs_nil]
    · by_cases hf : st.cl + (if st.cc.isEmpty then 0 else 1) + (strip s0).length > M ∧
        ¬st.cc.isEmpty = true
      · rw [stepSentence_acc_flush p M s0 st hE hf hsl]
        simp only [chunkText_cons, chunkText_nil, nonWs_append]
        have hj : joinSp [strip s0] = strip s0 := rfl
        rw [hj, nonWs_strip]
        simp [nonWs_nil]
      · rw [stepSentence_acc_noflush p M s0 st hE hf hsl]
        simp only [chunkText_nil, nonWs_nil, List.nil_append]
        rw [nonWs_joinSp, nonWs_joinSp]
        simp [nonWs_append, nonWs_strip]

theorem stepSentence_inv0 (p M : Nat) (s0 : List Char) (st : BState)
    (h : st.cc.isEmpty = true → st.cl = 0) :
    (stepSentence p M s0 st).2.cc.isEmpty = true →
      (stepSentence p M s0 st).2.cl = 0 := by
  by_cases hE : (strip s0).isEmpty = true
  · rw [stepSentence_skip p M s0 st hE]
    exact h
  · replace hE : (strip s0).isEmpty = false := by simpa using hE
    by_cases hsl : (strip s0).length > M
    · by_cases hf : st.cl + (if st.cc.isEmpty then 0 else 1) + (strip s0).length > M ∧
        ¬st.cc.isEmpty = true
      · rw [stepSentence_word_flush p M s0 st hE hf hsl]
        intro
        rfl
      · have hcc := cc_empty_of_noflush_oversized p M s0 st hf hsl
        rw [stepSentence_word_noflush p M s0 st hE hcc hsl]
        intro
        rfl
    · by_cases hf : st.cl + (if st.cc.isEmpty then 0 else 1) + (strip s0).length > M ∧
        ¬st.cc.isEmpty = true
      · rw [stepSentence_acc_flush p M s0 st hE hf hsl]
        intro hx
        simp at hx
      · rw [stepSentence_acc_noflush p M s0 st hE hf hsl]
        intro hx
        simp at hx

theorem stepSentence_idx (p M : Nat) (s0 : List Char) (st : BState) :
    (stepSentence p M s0 st).1.map TextChunk.chunk_index =
      List.range' st.idx (stepSentence p M s0 st).1.length ∧
    (stepSentence p M s0 st).2.idx = st.idx + (stepSentence p M s0 st).1.length := by
  by_cases hE : (strip s0).isEmpty = true
  · rw [stepSentence_skip p M s0 st hE]
    simp
  · replace hE : (strip s0).isEmpty = false := by simpa using hE
    by_cases hsl : (strip s0).length > M
    · by_cases hf : st.cl + (if st.cc.isEmpty then 0 else 1) + (strip s0).length > M ∧
        ¬st.cc.isEmpty = true
      · rw [stepSentence_word_flush p M s0 st hE hf hsl]
        have hw := wordLoop_idx p M (splitWs (strip s0)) [] 0 (st.idx + 1)
        constructor
        · simp only [List.map_cons, List.length_cons]
          rw [hw.1, List.range'_succ]
        · simp only [List.length_cons]
          rw [hw.2]
          omega
      · have hcc := cc_empty_of_noflush_oversized p M s0 st hf hsl
        rw [stepSentence_word_noflush p M s0 st hE hcc hsl]
        exact wordLoop_idx p M (splitWs (strip s0)) [] 0 st.idx
    · by_cases hf : st.cl + (if st.cc.isEmpty then 0 else 1) + (strip s0).length > M ∧
        ¬st.cc.isEmpty = true
      · rw [stepSentence_acc_flush p M s0 st hE hf hsl]
        simp [List.range'_succ]
      · rw [stepSentence_acc_noflush p M s0 st hE hf hsl]
        simp

theorem stepSentence_bound (p M : Nat) (s0 : List Char) (st : BState)
    (h1 : st.cl = (joinSp st.cc).length) (h2 : st.cl ≤ M)
    (h3 : ∀ x ∈ st.cc, x ≠ []) :
    (∀ c ∈ (stepSentence p M s0 st).1,
       c.text.length ≤ M ∨ (M < c.text.length ∧ ∀ ch ∈ c.text, ¬isWs ch)) ∧
    ((stepSentence p M s0 st).2.cl = (joinSp (stepSentence p M s0 st).2.cc).length ∧
     (stepSentence p M s0 st).2.cl ≤ M ∧
     ∀ x ∈ (stepSentence p M s0 st).2.cc, x ≠ []) := by
  by_cases hE : (strip s0).isEmpty = true
  · rw [stepSentence_skip p M s0 st hE]
    exact ⟨by simp, h1, h2, h3⟩
  · replace hE : (strip s0).isEmpty = false := by simpa using hE
    have hsne : strip s0 ≠ [] := by simpa [List.isEmpty_iff] using hE
    by_cases hsl : (strip s0).length > M
    · by_cases hf : st.cl + (if st.cc.isEmpty then 0 else 1) + (strip s0).length > M ∧
        ¬st.cc.isEmpty = true
      · rw [stepSentence_word_flush p M s0 st hE hf hsl]
        refine ⟨?_, rfl, Nat.zero_le M, by simp⟩
        intro c hc
        rcases List.mem_cons.mp hc with rfl | hc
        · exact Or.inl (by simp only []; omega)
        · exact wordLoop_bound p M (splitWs (strip s0)) [] 0 (st.idx + 1)
            (splitWs_words (strip s0)) (by simp) rfl
            (Or.inl (Nat.zero_le M)) c hc
      · have hcc := cc_empty_of_noflush_oversized p M s0 st hf hsl
        rw [stepSentence_word_noflush p M s0 st hE hcc hsl]
        refine ⟨?_, rfl, Nat.zero_le M, by simp⟩
        intro c hc
        exact wordLoop_bound p M (splitWs (strip s0)) [] 0 st.idx
          (splitWs_words (strip s0)) (by simp) rfl (Or.inl (Nat.zero_le M)) c hc
    · by_cases hf : st.cl + (if st.cc.isEmpty then 0 else 1) + (strip s0).length > M ∧
        ¬st.cc.isEmpty = true
      · rw [stepSentence_acc_flush p M s0 st hE hf hsl]
        refine ⟨?_, rfl, ?_, ?_⟩
        · intro c hc
          rcases List.mem_singleton.mp hc with rfl
          exact Or.inl (by simp only []; omega)
        · show (strip s0).length ≤ M
          omega
        · intro x hx
          rcases List.mem_singleton.mp hx with rfl
          exact hsne
      · rw [stepSentence_acc_noflush p M s0 st hE hf hsl]
        have hif0 : (if (0 : Nat) > 0 then 1 else 0) = 0 := rfl
        have hsep : (if st.cl > 0 then 1 else 0) =
            (if st.cc.isEmpty = true then 0 else 1) := by
          by_cases hcc : st.cc.isEmpty = true
          · have hc0 : st.cc = [] := List.isEmpty_iff.mp hcc
            have hl0 : st.cl = 0 := by
              rw [hc0] at h1
              simpa [joinSp] using h1
            rw [hl0, hif0, if_pos hcc]
          · have hpos : 0 < (joinSp st.cc).length :=
              joinSp_length_pos st.cc hcc h3
            have hgt : st.cl > 0 := by omega
            rw [if_pos hgt, if_neg hcc]
        refine ⟨by simp, ?_, ?_, ?_⟩
        · simp only []
          rw [joinSp_length_append, hsep, h1]
        · show st.cl + (strip s0).length + (if st.cl > 0 then 1 else 0) ≤ M
          rcases not_and_or.mp hf with hng | hcc2
          · by_cases hcc : st.cc.isEmpty = true
            · have hc0 : st.cc = [] := List.isEmpty_iff.mp hcc
              have hl0 : st.cl = 0 := by
                rw [hc0] at h1
                simpa [joinSp] using h1
              rw [hl0, hif0]
              omega
            · have hpos : 0 < (joinSp st.cc).length :=
                joinSp_length_pos st.cc (by simpa using hcc) h3
              rw [if_neg hcc] at hng
              rw [if_pos (show st.cl > 0 by omega)]
              omega
          · have hcc : st.cc.isEmpty = true := not_not.mp hcc2
            have hc0 : st.cc = [] := List.isEmpty_iff.mp hcc
            have hl0 : st.cl = 0 := by
              rw [hc0] at h1
              simpa [joinSp] using h1
            rw [hl0, hif0]
            omega
        · intro x hx
          rcases List.mem_append.mp hx with hx | hx
          · exact h3 x hx
          · rcases List.mem_singleton.mp hx with rfl
            exact hsne

theorem runSentences_bound (p M : Nat) (ss : List (List Char)) (st : BState)
    (h1 : st.cl = (joinSp st.cc).length) (h2 : st.cl ≤ M)
    (h3 : ∀ x ∈ st.cc, x ≠ []) :
    ∀ c ∈ runSentences p M ss st,
      c.text.length ≤ M ∨ (M < c.text.length ∧ ∀ ch ∈ c.text, ¬isWs ch) := by
  induction ss generalizing st with
  | nil =>
    by_cases h : st.cc.isEmpty = true
    · simp [runSentences, h]
    · intro c hc
      simp only [runSentences, if_neg h, List.mem_singleton] at hc
      subst hc
      exact Or.inl (by simp only []; omega)
  | cons s ss ih =>
    intro c hc
    have hrun : runSentences p M (s :: ss) st =
        (stepSentence p M s st).1 ++ runSentences p M ss (stepSentence p M s st).2 := rfl
    rw [hrun] at hc
    have hstep := stepSentence_bound p M s st h1 h2 h3
    rcases List.mem_append.mp hc with hc | hc
    · exact hstep.1 c hc
    · exact ih (stepSentence p M s st).2 hstep.2.1 hstep.2.2.1 hstep.2.2.2 c hc

theorem runSentences_pending (p : Nat) (ss : List (List Char)) (s : List Char)
    (idx : Nat) :
    s ∈ (runSentences p s.length ss ⟨[s], s.length, idx⟩).map TextChunk.text := by
  induction ss generalizing idx with
  | nil =>
    simp only [runSentences]
    rw [if_neg (by simp)]
    simp [joinSp]
  | cons s2 ss ih =>
    have hrun : runSentences p s.length (s2 :: ss) ⟨[s], s.length, idx⟩ =
        (stepSentence p s.length s2 ⟨[s], s.length, idx⟩).1 ++
          runSentences p s.length ss (stepSentence p s.length s2 ⟨[s], s.length, idx⟩).2 := rfl
    rw [hrun, List.map_append]
    by_cases hE : (strip s2).isEmpty = true
    · rw [stepSentence_skip _ _ s2 _ hE]
      simpa using ih idx
    · replace hE : (strip s2).isEmpty = false := by simpa using hE
      have hf : (⟨[s], s.length, idx⟩ : BState).cl +
          (if (⟨[s], s.length, idx⟩ : BState).cc.isEmpty then 0 else 1) +
          (strip s2).length > s.length ∧
          ¬(⟨[s], s.length, idx⟩ : BState).cc.isEmpty = true := by
        constructor
        · show s.length + (if ([s] : List (List Char)).isEmpty then 0 else 1) +
            (strip s2).length > s.length
          rw [if_neg (by simp)]
          omega
        · show ¬([s] : List (List Char)).isEmpty = true
          simp
      by_cases hsl : (strip s2).length > s.length
      · rw [stepSentence_word_flush _ _ s2 _ hE hf hsl]
        apply List.mem_append_left
        simp [joinSp]
      · rw [stepSentence_acc_flush _ _ s2 _ hE hf hsl]
        apply List.mem_append_left
        simp [joinSp]

theorem runSentences_member (p M : Nat) (ss : List (List Char)) (st : BState)
    (hinv : st.cc.isEmpty = true → st.cl = 0) (s : List Char) (hmem : s ∈ ss)
    (hstrip : strip s = s) (hne : s ≠ []) (hlen : s.length = M) :
    s ∈ (runSentences p M ss st).map TextChunk.text := by
  induction ss generalizing st with
  | nil => simp at hmem
  | cons s2 ss ih =>
    have hrun : runSentences p M (s2 :: ss) st =
        (stepSentence p M s2 st).1 ++ runSentences p M ss (stepSentence p M s2 st).2 := rfl
    rw [hrun, List.map_append]
    rcases List.mem_cons.mp hmem with rfl | hmem
    · have hE : (strip s).isEmpty = false := by
        rw [hstrip]
        simpa [List.isEmpty_iff] using hne
      have hsl : ¬(strip s).length > M := by
        rw [hstrip]
        omega
      by_cases hcc : st.cc.isEmpty = true
      · have hc0 : st.cc = [] := List.isEmpty_iff.mp hcc
        have hl0 : st.cl = 0 := hinv hcc
        have hnf : ¬(st.cl + (if st.cc.isEmpty then 0 else 1) + (strip s).length > M ∧
            ¬st.cc.isEmpty = true) := by
          intro hx
          exact hx.2 hcc
        rw [stepSentence_acc_noflush p M s st hE hnf hsl]
        apply List.mem_append_right
        have hst : (⟨st.cc ++ [strip s],
            st.cl + (strip s).length + (if st.cl > 0 then 1 else 0), st.idx⟩ : BState) =
            ⟨[s], s.length, st.idx⟩ := by
          rw [hc0, hl0, hstrip]
          simp
        rw [hst, ← hlen]
        exact runSentences_pending p ss s st.idx
      · replace hcc : st.cc.isEmpty = false := by simpa using hcc
        have hf : st.cl + (if st.cc.isEmpty then 0 else 1) + (strip s).length > M ∧
            ¬st.cc.isEmpty = true := by
          constructor
          · rw [if_neg (by simp [hcc]), hstrip]
            omega
          · simp [hcc]
        rw [stepSentence_acc_flush p M s st hE hf hsl]
        apply List.mem_append_right
        have hst : (⟨[strip s], (strip s).length, st.idx + 1⟩ : BState) =
            ⟨[s], s.length, st.idx + 1⟩ := by
          rw [hstrip]
        rw [hst, ← hlen]
        exact runSentences_pending p ss s (st.idx + 1)
    · apply List.mem_append_right
      exact ih (stepSentence p M s2 st).2 (stepSentence_inv0 p M s2 st hinv) hmem

theorem runSentences_content (p M : Nat) (ss : List (List Char)) (st : BState) :
    nonWs (chunkText (runSentences p M ss st)) =
      nonWs (joinSp st.cc) ++ nonWs ss.flatten := by
  induction ss generalizing st with
  | nil =>
    by_cases h : st.cc.isEmpty = true
    · have hc0 : st.cc = [] := List.isEmpty_iff.mp h
      simp [runSentences, h, chunkText_nil, nonWs_nil, hc0, joinSp]
    · simp [runSentences, h, chunkText, nonWs_nil]
  | cons s ss ih =>
    show nonWs (chunkText ((stepSentence p M s st).1 ++
      runSentences p M ss (stepSentence p M s st).2)) = _
    rw [chunkText_append, nonWs_append, ih, ← List.append_assoc,
        stepSentence_content]
    simp [nonWs_append, List.append_assoc]

theorem runSentences_idx (p M : Nat) (ss : List (List Char)) (st : BState) :
    (runSentences p M ss st).map TextChunk.chunk_index =
      List.range' st.idx (runSentences p M ss st).length := by
  induction ss generalizing st with
  | nil =>
    by_cases h : st.cc.isEmpty = true
    · simp [runSentences, h]
    · simp [runSentences, h, List.range'_succ]
  | cons s ss ih =>
    have hrun : runSentences p M (s :: ss) st =
        (stepSentence p M s st).1 ++ runSentences p M ss (stepSentence p M s st).2 := rfl
    have hstep := stepSentence_idx p M s st
    rw [hrun, List.map_append, hstep.1, ih, hstep.2, List.length_append]
    have hap := List.range'_append st.idx (stepSentence p M s st).1.length
      (runSentences p M ss (stepSentence p M s st).2).length 1
    simp only [one_mul] at hap
    rw [hap, Nat.add_comm]

theorem strip_nil : strip ([] : List Char) = [] := rfl

theorem create_chunks_content (t : List Char) (p M : Nat) :
    nonWs (chunkText (create_chunks_from_text t p M)) = nonWs t := by
  unfold create_chunks_from_text
  by_cases hE : (strip t).isEmpty = true
  · rw [if_pos hE, nonWs_of_strip_empty t hE]
    rfl
  · rw [if_neg hE]
    have htne : t ≠ [] := by
      intro h0
      rw [h0, strip_nil] at hE
      simp at hE
    have hss : ¬(splitSentences t).isEmpty = true := by
      have := splitSentencesAux_ne_nil t [] (Or.inl (by simpa [List.isEmpty_iff] using htne))
      simpa [splitSentences, List.isEmpty_iff] using this
    rw [if_neg hss]
    unfold chunksFromSentences
    rw [runSentences_content]
    have hj : joinSp ([] : List (List Char)) = [] := rfl
    rw [show (⟨[], 0, 0⟩ : BState).cc = [] from rfl, hj, splitSentences_join]
    simp [nonWs_nil]

theorem create_chunks_idx (t : List Char) (p M : Nat) :
    (create_chunks_from_text t p M).map TextChunk.chunk_index =
      List.range (create_chunks_from_text t p M).length := by
  unfold create_chunks_from_text
  by_cases hE : (strip t).isEmpty = true
  · rw [if_pos hE]
    rfl
  · rw [if_neg hE]
    by_cases hss : (splitSentences t).isEmpty = true
    · rw [if_pos hss]
      rfl
    · rw [if_neg hss]
      unfold chunksFromSentences
      rw [runSentences_idx, List.range_eq_range']

theorem create_chunks_bound (t : List Char) (p M : Nat) :
    ∀ c ∈ create_chunks_from_text t p M,
      c.text.length ≤ M ∨ (M < c.text.length ∧ ∀ ch ∈ c.text, ¬isWs ch) := by
  unfold create_chunks_from_text
  by_cases hE : (strip t).isEmpty = true
  · rw [if_pos hE]
    simp
  · rw [if_neg hE]
    by_cases hss : (splitSentences t).isEmpty = true
    · rw [if_pos hss]
      simp
    · rw [if_neg hss]
      exact runSentences_bound p M (splitSentences t) ⟨[], 0, 0⟩ rfl (Nat.zero_le M)
        (by simp)

theorem process_pdf_page_idx (n : Nat) (t : List Char) (M : Nat) :
    (process_pdf_page n t M).map TextChunk.chunk_index =
      List.range (process_pdf_page n t M).length := by
  unfold process_pdf_page
  by_cases hE : (strip t).isEmpty = true
  · rw [if_pos hE]
    rfl
  · rw [if_neg hE]
    exact create_chunks_idx _ _ _

theorem processPages_eq (pages : List (List Char)) (n M : Nat) :
    processPages pages n M =
      ((List.enumFrom n pages).map (fun e => process_pdf_page e.1 e.2 M)).flatten := by
  induction pages generalizing n with
  | nil => rfl
  | cons t rest ih =>
    rw [processPages, List.enumFrom_cons, List.map_cons, List.flatten_cons, ih]

theorem get_status_fst (store : Store) (sid : String) :
    (get_status store sid).1 = store := by
  unfold get_status
  cases h1 : findSession store sid with
  | none => rfl
  | some s =>
    cases h2 : pyGet s.chunks s.current_index with
    | none => simp [h2]
    | some c => simp [h2]

theorem findSession_set (store : Store) (sid : String) (s s2 : Session)
    (h : findSession store sid = some s) :
    findSession (setSession store sid s2) sid = some s2 := by
  induction store with
  | nil => simp [findSession] at h
  | cons e rest ih =>
    by_cases he : (e.1 == sid) = true
    · have he2 : e.1 = sid := by simpa using he
      have hhead : setSession (e :: rest) sid s2 =
          (sid, s2) :: setSession rest sid s2 := by
        simp [setSession, he2]
      rw [hhead]
      simp [findSession, List.find?_cons]
    · have hb : (e.1 == sid) = false := by simpa using he
      have he2 : ¬e.1 = sid := by simpa using hb
      have hhead : setSession (e :: rest) sid s2 = e :: setSession rest sid s2 := by
        simp [setSession, he2]
      rw [hhead]
      have h2 : findSession rest sid = some s := by
        simpa [findSession, List.find?_cons, hb] using h
      simpa [findSession, List.find?_cons, hb] using ih h2

theorem findSession_mem (store : Store) (sid : String) (s : Session)
    (h : findSession store sid = some s) : ∃ e ∈ store, e.2 = s := by
  unfold findSession at h
  cases hf : List.find? (fun e => e.1 == sid) store with
  | none =>
    rw [hf] at h
    simp at h
  | some e =>
    rw [hf] at h
    simp at h
    exact ⟨e, List.mem_of_find?_eq_some hf, h⟩

theorem mem_setSession (store : Store) (sid : String) (s2 : Session)
    (e2 : String × Session) (h : e2 ∈ setSession store sid s2) :
    e2 ∈ store ∨ e2 = (sid, s2) := by
  unfold setSession at h
  rcases List.mem_map.mp h with ⟨e, hmem, heq⟩
  by_cases he : (e.1 == sid) = true
  · rw [if_pos he] at heq
    exact Or.inr heq.symm
  · rw [if_neg he] at heq
    exact Or.inl (heq ▸ hmem)

theorem pyGet_nil {α : Type} (i : Int) : pyGet ([] : List α) i = none := by
  unfold pyGet
  split_ifs <;> simp

theorem pyGet_nonneg {α : Type} (l : List α) (i : Int) (h0 : 0 ≤ i)
    (hlt : i < (l.length : Int)) : ∃ a, pyGet l i = some a := by
  have hn : i.toNat < l.length := by omega
  refine ⟨l.get ⟨i.toNat, hn⟩, ?_⟩
  unfold pyGet
  rw [if_pos h0]
  exact List.get?_eq_get hn

theorem read_chunk_fst (store : Store) (sid : String) (i : Int) (now : Nat)
    (synth : List Char → Except Unit (List Nat)) (s : Session) (c : TextChunk)
    (h : findSession store sid = some s) (hc : pyGet s.chunks i = some c) :
    (read_chunk store sid i now synth).1 =
      setSession store sid ⟨s.id, s.chunks, i, now⟩ := by
  simp only [read_chunk, h, hc]
  cases synth c.text <;> rfl

/-- C1 counterexample: a two-page document ("A." then "B.") yields two
chunks whose chunk_index values are [0, 0] — the second page restarts at
0 — so the document-level indices are not 0..N-1 as the claim states. -/
theorem C1_counterexample :
    (process_pdf [['A', '.'], ['B', '.']] 2000).map TextChunk.chunk_index = [0, 0] ∧
    (process_pdf [['A', '.'], ['B', '.']] 2000).map TextChunk.chunk_index ≠
      List.range (process_pdf [['A', '.'], ['B', '.']] 2000).length := by
  constructor
  · decide
  · decide

/-- C1 (amended): process_pdf concatenates the per-page chunk sequences
in page order without any re-indexing, and within each single page the
chunk_index values are exactly 0..k-1 (contiguous, no gaps or repeats);
they restart at 0 on every page rather than being globally contiguous. -/
theorem C1_page_local_indices (pages : List (List Char)) (M n : Nat)
    (t : List Char) :
    process_pdf pages M =
      ((List.enumFrom 1 pages).map (fun e => process_pdf_page e.1 e.2 M)).flatten ∧
    (process_pdf_page n t M).map TextChunk.chunk_index =
      List.range (process_pdf_page n t M).length :=
  ⟨processPages_eq pages 1 M, process_pdf_page_idx n t M⟩

/-- C2: evaluating read_chunk at a negative index on a one-chunk session
shows the code accepting index -1: it returns the synthesized audio of
the last chunk and commits current_index = -1 to the session, instead of
failing with the 400 invalid-index error and leaving the session
unmodified as the claim requires for index < 0. -/
theorem C2_negative_index_accepted :
    (read_chunk [("s1", ⟨"s1", [⟨['h', 'i'], 1, 0, (0, 0), true⟩], 0, 0⟩)]
        "s1" (-1) 7 (fun _ => Except.ok [1])).2 = Except.ok [1] ∧
    (findSession (read_chunk [("s1", ⟨"s1", [⟨['h', 'i'], 1, 0, (0, 0), true⟩], 0, 0⟩)]
        "s1" (-1) 7 (fun _ => Except.ok [1])).1 "s1").map Session.current_index =
      some (-1) := by
  constructor
  · rfl
  · rfl

/-- C3 counterexample: on a session whose chunk list is empty,
get_status does not fail with the NoContent error — the unchecked index
access raises an uncaught IndexError surfaced as a 500 internal error. -/
theorem C3_counterexample :
    (get_status [("empty", ⟨"empty", [], 0, 0⟩)] "empty").2 =
      Except.error ApiError.internalError ∧
    ApiError.internalError ≠ ApiError.noContent := by
  constructor
  · rfl
  · decide

/-- C3 (amended): get_status fails with SessionNotFound when the id is
absent; it performs no empty-chunk check, so on a session with an empty
chunk list the chunk lookup fails as an unhandled IndexError (500
internal error), not NoContent; otherwise it returns the triple
(current_index, total_chunks, page number of the current chunk). -/
theorem C3_get_status_spec (store : Store) (sid : String) :
    (findSession store sid = none →
      get_status store sid = (store, Except.error ApiError.sessionNotFound)) ∧
    (∀ s, findSession store sid = some s → s.chunks = [] →
      (get_status store sid).2 = Except.error ApiError.internalError) ∧
    (∀ s c, findSession store sid = some s →
      pyGet s.chunks s.current_index = some c →
      (get_status store sid).2 =
        Except.ok (s.current_index, s.chunks.length, c.page_number)) := by
  refine ⟨?_, ?_, ?_⟩
  · intro h
    simp [get_status, h]
  · intro s hs hch
    simp [get_status, hs, hch, pyGet_nil]
  · intro s c hs hc
    simp [get_status, hs, hc]

/-- C3 witness: the amended theorem applied to a concrete store holding
an empty-chunk session. -/
theorem C3_witness :
    findSession [("empty2", ⟨"empty2", [], 0, 0⟩)] "empty2" =
      some ⟨"empty2", [], 0, 0⟩ ∧
    (get_status [("empty2", ⟨"empty2", [], 0, 0⟩)] "empty2").2 =
      Except.error ApiError.internalError :=
  ⟨by decide,
   (C3_get_status_spec [("empty2", ⟨"empty2", [], 0, 0⟩)] "empty2").2.1
     ⟨"empty2", [], 0, 0⟩ (by decide) rfl⟩

/-- C4: for any input text, page number and maximum size M ≥ 1, every
chunk the Chunk Builder emits either fits within M characters or is a
single whitespace-free word longer than M, emitted whole. -/
theorem C4_chunk_size_bound (t : List Char) (p M : Nat) (hM : 1 ≤ M) :
    ∀ c ∈ create_chunks_from_text t p M,
      c.text.length ≤ M ∨ (M < c.text.length ∧ ∀ ch ∈ c.text, ¬isWs ch) :=
  fun c hc => create_chunks_bound t p M c hc

/-- C4 witness: the bound theorem applied to the text "abcdef" with
M = 3, whose single oversized word is emitted whole. -/
theorem C4_witness :
    1 ≤ 3 ∧
    ((⟨['a', 'b', 'c', 'd', 'e', 'f'], 1, 0, (0, 0), true⟩ : TextChunk).text.length ≤ 3 ∨
     (3 < (⟨['a', 'b', 'c', 'd', 'e', 'f'], 1, 0, (0, 0), true⟩ : TextChunk).text.length ∧
      ∀ ch ∈ (⟨['a', 'b', 'c', 'd', 'e', 'f'], 1, 0, (0, 0), true⟩ : TextChunk).text,
        ¬isWs ch)) :=
  ⟨by decide,
   C4_chunk_size_bound ['a', 'b', 'c', 'd', 'e', 'f'] 1 3 (by decide)
     ⟨['a', 'b', 'c', 'd', 'e', 'f'], 1, 0, (0, 0), true⟩ (by decide)⟩

/-- C5 counterexample: on the text "a.b" the chunker splits the single
word "a.b" at the interior period, producing the chunk "a. b" whose word
sequence ["a.", "b"] differs from the word sequence ["a.b"] of the
input, so word-level conservation fails as stated. -/
theorem C5_counterexample :
    ((create_chunks_from_text ['a', '.', 'b'] 1 2000).map
        (fun c => splitWs c.text)).flatten ≠ splitWs ['a', '.', 'b'] := by
  decide

/-- C5 (amended): the chunker conserves the non-whitespace character
sequence: stripping whitespace, the concatenation of all chunk texts
equals the input text, so no character of any word is lost, duplicated
or reordered — though a word containing an interior sentence terminator
may be split into two words, as the counterexample shows. -/
theorem C5_char_conservation (t : List Char) (p M : Nat) :
    nonWs (chunkText (create_chunks_from_text t p M)) = nonWs t :=
  create_chunks_content t p M

/-- C6: a (trimmed, non-empty) sentence whose length is exactly the
maximum chunk size M is kept intact by the Chunk Builder — it appears
whole as a chunk's text and is never routed through word splitting. -/
theorem C6_exact_fit_sentence_intact (ss : List (List Char)) (p M : Nat)
    (s : List Char) (hmem : s ∈ ss) (hstrip : strip s = s) (hne : s ≠ [])
    (hlen : s.length = M) :
    s ∈ (chunksFromSentences p M ss).map TextChunk.text :=
  runSentences_member p M ss ⟨[], 0, 0⟩ (fun _ => rfl) s hmem hstrip hne hlen

/-- C6 witness: the sentence "ab" with M = 2 appears intact among the
chunk texts. -/
theorem C6_witness :
    ['a', 'b'] ∈ ([['a', 'b']] : List (List Char)) ∧
    strip ['a', 'b'] = ['a', 'b'] ∧
    (['a', 'b'] : List Char) ≠ [] ∧
    (['a', 'b'] : List Char).length = 2 ∧
    ['a', 'b'] ∈ (chunksFromSentences 1 2 [['a', 'b']]).map TextChunk.text :=
  ⟨by decide, by decide, by decide, by decide,
   C6_exact_fit_sentence_intact [['a', 'b']] 1 2 ['a', 'b'] (by decide) (by decide)
     (by decide) (by decide)⟩

/-- C7: session creation rejects an empty chunk list without touching
the store, inserts a non-empty one as a fresh session with cursor 0 and
the creation timestamp, and the no-empty-session store invariant is
preserved by creation, chunk reads and status queries. -/
theorem C7_no_empty_sessions (store : Store) (chunks : List TextChunk)
    (fresh sid : String) (i : Int) (now : Nat)
    (synth : List Char → Except Unit (List Nat)) :
    (chunks = [] → create_session store chunks fresh now =
      (store, Except.error ApiError.noTextContent)) ∧
    (chunks ≠ [] → (create_session store chunks fresh now).1 =
      (fresh, ⟨fresh, chunks, 0, now⟩) :: store) ∧
    ((∀ e ∈ store, e.2.chunks ≠ []) → chunks ≠ [] →
      ∀ e ∈ (create_session store chunks fresh now).1, e.2.chunks ≠ []) ∧
    ((∀ e ∈ store, e.2.chunks ≠ []) →
      ∀ e ∈ (read_chunk store sid i now synth).1, e.2.chunks ≠ []) ∧
    ((∀ e ∈ store, e.2.chunks ≠ []) →
      ∀ e ∈ (get_status store sid).1, e.2.chunks ≠ []) := by
  refine ⟨?_, ?_, ?_, ?_, ?_⟩
  · intro h
    simp [create_session, h]
  · intro h
    simp [create_session, List.isEmpty_iff, h]
  · intro hinv hne e he
    have h2 : (create_session store chunks fresh now).1 =
        (fresh, ⟨fresh, chunks, 0, now⟩) :: store := by
      simp [create_session, List.isEmpty_iff, hne]
    rw [h2] at he
    rcases List.mem_cons.mp he with rfl | he
    · exact hne
    · exact hinv e he
  · intro hinv e he
    cases h1 : findSession store sid with
    | none =>
      simp only [read_chunk, h1] at he
      exact hinv e he
    | some s =>
      cases h2 : pyGet s.chunks i with
      | none =>
        simp only [read_chunk, h1, h2] at he
        exact hinv e he
      | some c =>
        rw [read_chunk_fst store sid i now synth s c h1 h2] at he
        rcases mem_setSession store sid ⟨s.id, s.chunks, i, now⟩ e he with he | rfl
        · exact hinv e he
        · obtain ⟨e0, he0, he0s⟩ := findSession_mem store sid s h1
          have := hinv e0 he0
          rw [he0s] at this
          exact this
  · intro hinv e he
    rw [get_status_fst store sid] at he
    exact hinv e he

/-- C7 witness: creating a session from an empty chunk list is rejected
and leaves the (empty) store unchanged. -/
theorem C7_witness :
    ([] : List TextChunk) = [] ∧
    create_session [] [] "f" 5 = ([], Except.error ApiError.noTextContent) :=
  ⟨rfl, (C7_no_empty_sessions [] [] "f" "x" 0 5 (fun _ => Except.ok [])).1 rfl⟩

/-- C8: for a valid in-range index the cursor update of read_chunk is
committed to the store regardless of the synthesis outcome, so a
subsequent get_status on the same store reports current_index = i —
also when the synthesis collaborator fails. -/
theorem C8_cursor_committed_before_synthesis (store : Store) (sid : String)
    (i : Int) (now : Nat) (synth : List Char → Except Unit (List Nat))
    (s : Session) (hs : findSession store sid = some s) (h0 : 0 ≤ i)
    (hlt : i < (s.chunks.length : Int)) :
    (read_chunk store sid i now synth).1 =
      setSession store sid ⟨s.id, s.chunks, i, now⟩ ∧
    ∃ pn, (get_status (read_chunk store sid i now synth).1 sid).2 =
      Except.ok (i, s.chunks.length, pn) := by
  obtain ⟨c, hc⟩ := pyGet_nonneg s.chunks i h0 hlt
  have hfst := read_chunk_fst store sid i now synth s c hs hc
  refine ⟨hfst, c.page_number, ?_⟩
  rw [hfst]
  have hfind := findSession_set store sid s ⟨s.id, s.chunks, i, now⟩ hs
  simp [get_status, hfind, hc]

/-- C8 witness: a read with a failing synthesis backend still commits
the cursor, and get_status afterwards reports index 0 of 1 chunks. -/
theorem C8_witness :
    findSession [("w", ⟨"w", [⟨['y'], 3, 0, (0, 0), true⟩], 0, 0⟩)] "w" =
      some ⟨"w", [⟨['y'], 3, 0, (0, 0), true⟩], 0, 0⟩ ∧
    ∃ pn, (get_status (read_chunk
        [("w", ⟨"w", [⟨['y'], 3, 0, (0, 0), true⟩], 0, 0⟩)]
        "w" 0 9 (fun _ => Except.error ())).1 "w").2 = Except.ok (0, 1, pn) :=
  ⟨by decide,
   (C8_cursor_committed_before_synthesis
     [("w", ⟨"w", [⟨['y'], 3, 0, (0, 0), true⟩], 0, 0⟩)] "w" 0 9
     (fun _ => Except.error ()) ⟨"w", [⟨['y'], 3, 0, (0, 0), true⟩], 0, 0⟩
     (by decide) (by decide) (by decide)).2⟩

/-- C9: synthesize rejects empty or whitespace-only text and any rate or
volume that is not a percentage string whose prefix parses as an integer
in [-100, 100]: for every such invalid input it returns an error
independent of the synthesis backend (the backend is never invoked);
conversely on valid input it invokes the backend. -/
theorem C9_synthesize_rejects_invalid (text voice rate volume : List Char) :
    ((strip text).isEmpty = true ∨ validate_percentage rate = false ∨
        validate_percentage volume = false →
      ∃ e, ∀ backend, synthesize backend text voice rate volume = Except.error e) ∧
    ((strip text).isEmpty = false → validate_percentage rate = true →
      validate_percentage volume = true →
      ∀ backend, synthesize backend text voice rate volume =
        Except.ok (backend text voice rate volume)) := by
  constructor
  · intro h
    by_cases ht : (strip text).isEmpty = true
    · exact ⟨ApiError.emptyText, fun backend => by simp [synthesize, ht]⟩
    · have ht2 : (strip text).isEmpty = false := by simpa using ht
      by_cases hr : validate_percentage rate = true
      · have hv : validate_percentage volume = false := by
          rcases h with h | h | h
          · exact absurd h ht
          · rw [h] at hr
            cases hr
          · exact h
        exact ⟨ApiError.invalidParam, fun backend => by
          simp [synthesize, ht2, hr, hv]⟩
      · have hr2 : validate_percentage rate = false := by simpa using hr
        exact ⟨ApiError.invalidParam, fun backend => by simp [synthesize, ht2, hr2]⟩
  · intro ht hr hv backend
    simp [synthesize, ht, hr, hv]

/-- C9 witness: the rejection branch applied to the out-of-range rate
"150%" with non-empty text. -/
theorem C9_witness :
    ((strip ['h', 'i']).isEmpty = true ∨
      validate_percentage ['1', '5', '0', '%'] = false ∨
      validate_percentage ['+', '0', '%'] = false) ∧
    ∃ e, ∀ backend, synthesize backend ['h', 'i'] ['v'] ['1', '5', '0', '%']
      ['+', '0', '%'] = Except.error e :=
  ⟨by decide,
   (C9_synthesize_rejects_invalid ['h', 'i'] ['v'] ['1', '5', '0', '%']
     ['+', '0', '%']).1 (by decide)⟩

/-- C10: a get_status call never modifies the store: the store after the
call is the one before it, and in particular the looked-up session keeps
its current_index, chunk list and last_accessed timestamp (no
refresh). -/
theorem C10_get_status_frame (store : Store) (sid : String) (s : Session)
    (hs : findSession store sid = some s) :
    (get_status store sid).1 = store ∧
    findSession (get_status store sid).1 sid = some s :=
  ⟨get_status_fst store sid, by rw [get_status_fst store sid]; exact hs⟩

/-- C10 witness: the frame theorem applied to a concrete one-session
store. -/
theorem C10_witness :
    findSession [("q", ⟨"q", [⟨['z'], 2, 0, (0, 0), true⟩], 0, 4⟩)] "q" =
      some ⟨"q", [⟨['z'], 2, 0, (0, 0), true⟩], 0, 4⟩ ∧
    ((get_status [("q", ⟨"q", [⟨['z'], 2, 0, (0, 0), true⟩], 0, 4⟩)] "q").1 =
        [("q", ⟨"q", [⟨['z'], 2, 0, (0, 0), true⟩], 0, 4⟩)] ∧
      findSession (get_status
          [("q", ⟨"q", [⟨['z'], 2, 0, (0, 0), true⟩], 0, 4⟩)] "q").1 "q" =
        some ⟨"q", [⟨['z'], 2, 0, (0, 0), true⟩], 0, 4⟩) :=
  ⟨by decide,
   C10_get_status_frame [("q", ⟨"q", [⟨['z'], 2, 0, (0, 0), true⟩], 0, 4⟩)] "q"
     ⟨"q", [⟨['z'], 2, 0, (0, 0), true⟩], 0, 4⟩ (by decide)⟩

end TTSService
